import Mathlib

/-!
# chex: a hexadecimal codec (`chex.h`)

A shallow embedding of the five functions of `chex.h` and proofs of the
properties its specification states about them.

Conventions of the embedding.

* A value of the C type `unsigned` is a natural number below `2^32`; every
  `unsigned` operation that can leave that range is followed by `wrapU`.
* A value of type `unsigned char` is a natural number below `2^8`; the
  conversion to `unsigned char` is `toUChar`.
* A `char` is kept as its 8-bit pattern (a natural number below `2^8`).  Whether
  plain `char` is signed is implementation defined, so the conversion of a
  `char` to `unsigned` takes the signedness as a parameter.
* A buffer is a list of cells.  Reading or writing a cell outside of the list
  is undefined behaviour in C and yields `none` here.  The source and the
  destination of a bulk operation are distinct objects.
-/

namespace Chex

/-! ## Machine arithmetic -/

/-- Reduction modulo `2^32`: the result of an `unsigned` operation. -/
def wrapU (n : Nat) : Nat := n % 4294967296

/-- Conversion to `unsigned char`: reduction modulo `2^8`. -/
def toUChar (n : Nat) : Nat := n % 256

/-- Subtraction `a - b` of two `unsigned` values, modulo `2^32`. -/
def subU (a b : Nat) : Nat := wrapU (a + 4294967296 - wrapU b)

/-- Conversion of a `char` (given by its 8-bit pattern `c`) to `unsigned`.  When
plain `char` is signed, the patterns `0x80..0xff` are negative values and are
converted modulo `2^32`. -/
def charToUnsigned (charSigned : Bool) (c : Nat) : Nat :=
  if charSigned = true ∧ 128 ≤ c then wrapU (c + 4294967296 - 256) else c

/-! ## Memory -/

/-- Read of cell `k` of a buffer; `none` outside of the buffer. -/
def load (buf : List Nat) (k : Nat) : Option Nat := buf[k]?

/-- Write of `v` to cell `k` of a buffer; `none` outside of the buffer. -/
def store (buf : List Nat) (k v : Nat) : Option (List Nat) :=
  if k < buf.length then some (buf.set k v) else none

/-! ## The three character primitives -/

/-- C source:
```
static unsigned chex_isxdigit(unsigned h){
  unsigned char n09 = h - '0';
  unsigned char nAF = (h | 0x20) - 'a';
  return (n09 <= (9 - 0)) || (nAF <= (0xf - 0xa));
}
``` -/
def chex_isxdigit (h : Nat) : Nat :=
  let n09 := toUChar (subU h 48)
  let nAF := toUChar (subU (h ||| 0x20) 97)
  if n09 ≤ 9 - 0 ∨ nAF ≤ 0xf - 0xa then 1 else 0

/-- The string literal `"0123456789abcdef"` as an array of `char`: its sixteen
characters followed by the terminating zero. -/
def lut : List Nat :=
  [48, 49, 50, 51, 52, 53, 54, 55, 56, 57, 97, 98, 99, 100, 101, 102, 0]

/-- C source:
```
static char chex_toxdigit(unsigned nibble){
  const char* lut = "0123456789abcdef";
  return lut[nibble & 0xf];
}
```
The result is `none` when the index falls outside of the literal. -/
def chex_toxdigit (nibble : Nat) : Option Nat :=
  load lut (nibble &&& 0xf)

/-- C source:
```
static unsigned char chex_fromxdigit(unsigned h){
  return ((h & 0xf) + (h >> 6) * 9);
}
``` -/
def chex_fromxdigit (h : Nat) : Nat :=
  toUChar (wrapU ((h &&& 0xf) + wrapU ((h >>> 6) * 9)))

/-! ## The two bulk operations -/

/-- The variables of the `for` loops of `chex_encode` and `chex_decode`: the byte
index `i`, the character index `j` and the content of the destination. -/
structure LoopState where
  i : Nat
  j : Nat
  dst : List Nat
deriving DecidableEq

/-- The guard `(i < blen) && (j+1 < hlen)` of both loops; `j+1` is an `unsigned`
sum. -/
def loopGuard (hlen blen : Nat) (s : LoopState) : Bool :=
  decide (s.i < blen) && decide (wrapU (s.j + 1) < hlen)

/-- One iteration of the loop of `chex_encode`, increment included:
```
hex[j+0] = chex_toxdigit(b[i]>>4);
hex[j+1] = chex_toxdigit(b[i]>>0);
++i, j+=2
``` -/
def encodeBody (bin : List Nat) (s : LoopState) : Option LoopState := do
  let b0 ← load bin s.i
  let c0 ← chex_toxdigit (b0 >>> 4)
  let hex0 ← store s.dst (wrapU (s.j + 0)) c0
  let b1 ← load bin s.i
  let c1 ← chex_toxdigit (b1 >>> 0)
  let hex1 ← store hex0 (wrapU (s.j + 1)) c1
  some { i := wrapU (s.i + 1), j := wrapU (s.j + 2), dst := hex1 }

/-- One iteration of the loop of `chex_decode`, increment included:
```
unsigned char hi = chex_fromxdigit(hex[j+0]);
unsigned char lo = chex_fromxdigit(hex[j+1]);
((unsigned char*)bin)[i] = (hi << 4) | lo;
++i, j+=2
``` -/
def decodeBody (charSigned : Bool) (hex : List Nat) (s : LoopState) :
    Option LoopState := do
  let c0 ← load hex (wrapU (s.j + 0))
  let hi := chex_fromxdigit (charToUnsigned charSigned c0)
  let c1 ← load hex (wrapU (s.j + 1))
  let lo := chex_fromxdigit (charToUnsigned charSigned c1)
  let bin0 ← store s.dst s.i (toUChar ((hi <<< 4) ||| lo))
  some { i := wrapU (s.i + 1), j := wrapU (s.j + 2), dst := bin0 }

/-- The loop `for(...; (i < blen) && (j+1 < hlen); ...) body`, run from state
`s` for at most `fuel` iterations.  The result is the state in which the guard
fails; it is `none` when an iteration is undefined or when the guard still
holds after `fuel` iterations. -/
def runLoop (hlen blen : Nat) (body : LoopState → Option LoopState) :
    Nat → LoopState → Option LoopState
  | 0, s => if loopGuard hlen blen s = true then none else some s
  | fuel + 1, s =>
    if loopGuard hlen blen s = true then
      (body s).bind (runLoop hlen blen body fuel)
    else some s

/-- C source:
```
static unsigned chex_encode(char* hex, unsigned hlen, const void* bin, unsigned blen){
  const unsigned char* b = (const unsigned char*)bin;
  unsigned i, j;
  for(i = 0, j = 0; (i < blen) && (j+1 < hlen); ++i, j+=2){ ... }
  return j;
}
```
The result is the returned count and the final content of `hex`.  Every
iteration increments `i` and needs `i < blen`, so `blen` iterations are
enough. -/
def chex_encode (hex : List Nat) (hlen : Nat) (bin : List Nat) (blen : Nat) :
    Option (Nat × List Nat) :=
  (runLoop hlen blen (encodeBody bin) blen { i := 0, j := 0, dst := hex }).map
    fun s => (s.j, s.dst)

/-- C source:
```
static unsigned chex_decode(void* bin, unsigned blen, const char* hex, unsigned hlen){
  unsigned i, j;
  for(i = 0, j = 0; (i < blen) && (j+1 < hlen); ++i, j+=2){ ... }
  return i;
}
```
The result is the returned count and the final content of `bin`. -/
def chex_decode (charSigned : Bool) (bin : List Nat) (blen : Nat) (hex : List Nat)
    (hlen : Nat) : Option (Nat × List Nat) :=
  (runLoop hlen blen (decodeBody charSigned hex) blen { i := 0, j := 0, dst := bin }).map
    fun s => (s.i, s.dst)

/-! ## Vocabulary of the specification -/

/-- The 22 characters `'0'..'9'`, `'a'..'f'`, `'A'..'F'`. -/
def IsHexDigitChar (c : Nat) : Prop :=
  (48 ≤ c ∧ c ≤ 57) ∨ (97 ≤ c ∧ c ≤ 102) ∨ (65 ≤ c ∧ c ≤ 70)

instance (c : Nat) : Decidable (IsHexDigitChar c) := by
  unfold IsHexDigitChar; infer_instance

/-- The lowercase hex digit of a nibble value `v < 16`: `'0' + v` below ten and
`'a' + (v - 10)` from ten on. -/
def lowerHexDigit (v : Nat) : Nat := if v < 10 then 48 + v else 97 + (v - 10)

/-- The numeric value of a hex digit character, in either case. -/
def hexDigitValue (c : Nat) : Nat :=
  if 48 ≤ c ∧ c ≤ 57 then c - 48
  else if 97 ≤ c ∧ c ≤ 102 then c - 97 + 10
  else if 65 ≤ c ∧ c ≤ 70 then c - 65 + 10
  else 0

/-- The function `to_upper` on characters: `'a'..'z'` go to `'A'..'Z'`, every
other character is unchanged. -/
def toUpper (c : Nat) : Nat := if 97 ≤ c ∧ c ≤ 122 then c - 32 else c

/-! ## Loop invariants -/

/-- The invariant of the loop of `chex_encode` started on destination `hex`. -/
def EncInv (hex bin : List Nat) (s : LoopState) : Prop :=
  s.dst.length = hex.length ∧
  (∀ k, 2 * s.i ≤ k → s.dst[k]? = hex[k]?) ∧
  (∀ k b, k < s.i → bin[k]? = some b →
    s.dst[2 * k]? = chex_toxdigit (b >>> 4) ∧ s.dst[2 * k + 1]? = chex_toxdigit b)

/-- The byte stored by one iteration of `chex_decode` for the character pair
`c0`, `c1`: `(hi << 4) | lo` converted to `unsigned char`. -/
def decodedByte (charSigned : Bool) (c0 c1 : Nat) : Nat :=
  toUChar ((chex_fromxdigit (charToUnsigned charSigned c0) <<< 4) |||
    chex_fromxdigit (charToUnsigned charSigned c1))

/-- The invariant of the loop of `chex_decode` started on destination `bin`. -/
def DecInv (charSigned : Bool) (bin hex : List Nat) (s : LoopState) : Prop :=
  s.dst.length = bin.length ∧
  (∀ k, s.i ≤ k → s.dst[k]? = bin[k]?) ∧
  (∀ k c0 c1, k < s.i → hex[2 * k]? = some c0 → hex[2 * k + 1]? = some c1 →
    s.dst[k]? = some (decodedByte charSigned c0 c1))

/-! ## Iterations of the loop -/

/-- The state after exactly `n` iterations of the loop started in `s`: the guard
holds before each of the `n` iterations and each iteration is defined.  The
result is `none` when the loop is left, or an iteration is undefined, before the
`n`-th iteration is complete. -/
def loopIter (hlen blen : Nat) (body : LoopState → Option LoopState) :
    Nat → LoopState → Option LoopState
  | 0, s => some s
  | n + 1, s =>
    if loopGuard hlen blen s = true then
      (body s).bind (loopIter hlen blen body n)
    else none

/-- The loop with body `body`, started in state `s0`, runs exactly `m` iterations
and then stops, and no index wraps.  In the state reached after `n ≤ m`
iterations `i = n` and `j = 2 * n` as natural numbers, the sum `j + 1` of the
guard is below `2^32`, the guard is the test `i < blen` and `2 * i + 2 ≤ hlen`,
and it holds exactly when `n < m`; the increments of an iteration do not wrap;
there is no state after more than `m` iterations; and the state after `m`
iterations is the one in which the loop is left. -/
def RunsWithoutWrap (hlen blen : Nat) (body : LoopState → Option LoopState)
    (s0 : LoopState) (m : Nat) : Prop :=
  (∀ n, n ≤ m → ∃ s, loopIter hlen blen body n s0 = some s ∧ s.i = n ∧ s.j = 2 * n ∧
    s.j + 1 < 4294967296 ∧ wrapU (s.j + 1) = s.j + 1 ∧
    (wrapU (s.j + 1) < hlen ↔ 2 * s.i + 2 ≤ hlen) ∧
    (loopGuard hlen blen s = true ↔ s.i < blen ∧ 2 * s.i + 2 ≤ hlen) ∧
    (loopGuard hlen blen s = true ↔ n < m) ∧
    (loopGuard hlen blen s = true → wrapU (s.i + 1) = s.i + 1 ∧ wrapU (s.j + 2) = s.j + 2)) ∧
  (∀ n, m < n → loopIter hlen blen body n s0 = none) ∧
  (∃ t, loopIter hlen blen body m s0 = some t ∧ loopGuard hlen blen t = false ∧
    runLoop hlen blen body blen s0 = some t)

/-! ## More vocabulary of the specification -/

/-- The 16 lowercase hex digits `'0'..'9'`, `'a'..'f'`. -/
def IsLowerHexDigitChar (c : Nat) : Prop :=
  (48 ≤ c ∧ c ≤ 57) ∨ (97 ≤ c ∧ c ≤ 102)

instance (c : Nat) : Decidable (IsLowerHexDigitChar c) := by
  unfold IsLowerHexDigitChar; infer_instance

/-- The function `to_lower` on characters: `'A'..'Z'` go to `'a'..'z'`, every
other character is unchanged. -/
def toLower (c : Nat) : Nat := if 65 ≤ c ∧ c ≤ 90 then c + 32 else c

/-- Character `d` is character `c` with its case kept or changed. -/
def CaseVariant (c d : Nat) : Prop := d = c ∨ d = toUpper c ∨ d = toLower c

instance (c d : Nat) : Decidable (CaseVariant c d) := by
  unfold CaseVariant; infer_instance

/-- The first quantity of section 4.1 of the specification, in its words:
`n09 = h - '0'` as an 8-bit wraparound subtraction, `(h - '0') mod 256`. -/
def spec_n09 (h : Nat) : Int := ((h : Int) - 48) % 256

/-- The second quantity of section 4.1 of the specification, in its words:
`nAF = (h | 0x20) - 'a'` as an 8-bit wraparound subtraction. -/
def spec_nAF (h : Nat) : Int := (((h ||| 0x20 : Nat) : Int) - 97) % 256

/-! ## Machine arithmetic and the loop rule -/

/-- A value below `2^32` is not changed by `unsigned` wraparound. -/
theorem wrapU_of_lt {n : Nat} (h : n < 4294967296) : wrapU n = n := Nat.mod_eq_of_lt h

/-- The lookup of `chex_toxdigit` always succeeds and yields the lowercase digit of
`n mod 16`. -/
theorem chex_toxdigit_eq (n : Nat) : chex_toxdigit n = some (lowerHexDigit (n % 16)) := by
  have h : n &&& 0xf = n % 16 := Nat.and_pow_two_sub_one_eq_mod n 4
  have hlt : n % 16 < 16 := Nat.mod_lt _ (by decide)
  unfold chex_toxdigit
  rw [h]
  generalize n % 16 = k at hlt
  interval_cases k <;> rfl

/-- While `j = 2 * i` and `i` has not passed `min blen (hlen / 2)`, the sum `j + 1`
does not wrap and the guard holds exactly when `i` is below that minimum. -/
theorem loopGuard_iff {hlen blen : Nat} {s : LoopState} (hh : hlen < 4294967296)
    (hj : s.j = 2 * s.i) (hi : s.i ≤ min blen (hlen / 2)) :
    loopGuard hlen blen s = true ↔ s.i < min blen (hlen / 2) := by
  have hw : wrapU (s.j + 1) = s.j + 1 := wrapU_of_lt (by omega)
  simp only [loopGuard, hw, Bool.and_eq_true, decide_eq_true_eq]
  omega

/-- The loop rule: a body that keeps `Inv`, increments `i` and keeps `j = 2 * i`
makes the loop stop, within the fuel, at `i = min blen (hlen / 2)` with `Inv`. -/
theorem runLoop_inv {hlen blen : Nat} {body : LoopState → Option LoopState}
    (hh : hlen < 4294967296) (Inv : LoopState → Prop)
    (hbody : ∀ s, Inv s → s.j = 2 * s.i → s.i < min blen (hlen / 2) →
      ∃ t, body s = some t ∧ Inv t ∧ t.i = s.i + 1 ∧ t.j = 2 * t.i) :
    ∀ (fuel : Nat) (s : LoopState), Inv s → s.j = 2 * s.i → s.i ≤ min blen (hlen / 2) →
      min blen (hlen / 2) - s.i ≤ fuel →
      ∃ t, runLoop hlen blen body fuel s = some t ∧ Inv t ∧
        t.i = min blen (hlen / 2) ∧ t.j = 2 * min blen (hlen / 2) := by
  intro fuel
  induction fuel with
  | zero =>
    intro s hinv hj hi hfuel
    have hg : ¬ loopGuard hlen blen s = true := by
      rw [loopGuard_iff hh hj hi]; omega
    refine ⟨s, by simp [runLoop, hg], hinv, by omega, by omega⟩
  | succ fuel ih =>
    intro s hinv hj hi hfuel
    by_cases hlt : s.i < min blen (hlen / 2)
    · have hg : loopGuard hlen blen s = true := (loopGuard_iff hh hj hi).2 hlt
      obtain ⟨t, hbt, hinvt, hti, htj⟩ := hbody s hinv hj hlt
      obtain ⟨u, hu, hinvu, hui, huj⟩ := ih t hinvt htj (by omega) (by omega)
      exact ⟨u, by simp [runLoop, hg, hbt, hu], hinvu, hui, huj⟩
    · have hg : ¬ loopGuard hlen blen s = true := by
        rw [loopGuard_iff hh hj hi]; exact hlt
      refine ⟨s, by simp [runLoop, hg], hinv, by omega, by omega⟩

/-- One iteration of `chex_encode` is defined and keeps `EncInv`. -/
theorem encodeBody_inv {hex bin : List Nat} {hlen blen : Nat} (hh : hlen < 4294967296)
    (hbin : min blen (hlen / 2) ≤ bin.length) (hhex : 2 * min blen (hlen / 2) ≤ hex.length)
    (s : LoopState) (hinv : EncInv hex bin s) (hj : s.j = 2 * s.i)
    (hi : s.i < min blen (hlen / 2)) :
    ∃ t, encodeBody bin s = some t ∧ EncInv hex bin t ∧ t.i = s.i + 1 ∧ t.j = 2 * t.i := by
  obtain ⟨hlen', hrest, hdone⟩ := hinv
  obtain ⟨b, hb⟩ : ∃ b, bin[s.i]? = some b :=
    ⟨_, List.getElem?_eq_getElem (show s.i < bin.length by omega)⟩
  have w0 : wrapU s.j = 2 * s.i := by rw [hj]; exact wrapU_of_lt (by omega)
  have w1 : wrapU (s.j + 1) = 2 * s.i + 1 := by rw [hj]; exact wrapU_of_lt (by omega)
  have w2 : wrapU (s.j + 2) = 2 * (s.i + 1) := by rw [hj]; exact wrapU_of_lt (by omega)
  have wi : wrapU (s.i + 1) = s.i + 1 := wrapU_of_lt (by omega)
  have l0 : 2 * s.i < s.dst.length := by omega
  have l1 : 2 * s.i + 1 < (s.dst.set (2 * s.i) (lowerHexDigit (b >>> 4 % 16))).length := by
    rw [List.length_set]; omega
  have l2 : 2 * s.i + 1 < s.dst.length := by omega
  refine ⟨{ i := s.i + 1, j := 2 * (s.i + 1),
            dst := (s.dst.set (2 * s.i) (lowerHexDigit (b >>> 4 % 16))).set (2 * s.i + 1)
              (lowerHexDigit (b % 16)) }, ?_, ⟨?_, ?_, ?_⟩, rfl, rfl⟩
  · simp [encodeBody, load, store, hb, chex_toxdigit_eq, w0, w1, w2, wi, l0, l2]
  · simp only [List.length_set]; exact hlen'
  · intro k hk
    simp only at hk
    rw [List.getElem?_set_ne (by omega), List.getElem?_set_ne (by omega)]
    exact hrest k (by omega)
  · intro k b' hk hb'
    simp only at hk
    by_cases hks : k < s.i
    · rw [List.getElem?_set_ne (by omega), List.getElem?_set_ne (by omega),
        List.getElem?_set_ne (by omega), List.getElem?_set_ne (by omega)]
      exact hdone k b' hks hb'
    · have hke : k = s.i := by omega
      subst hke
      rw [hb] at hb'
      cases hb'
      refine ⟨?_, ?_⟩
      · rw [List.getElem?_set_ne (by omega), List.getElem?_set_self l0, chex_toxdigit_eq]
      · rw [List.getElem?_set_self l1, chex_toxdigit_eq]

/-- The result of `chex_encode`: the count, the written characters, and the
characters that are left as they were. -/
theorem chex_encode_spec (hex bin : List Nat) (hlen blen : Nat) (hh : hlen < 4294967296)
    (hbin : min blen (hlen / 2) ≤ bin.length) (hhex : 2 * min blen (hlen / 2) ≤ hex.length) :
    ∃ out, chex_encode hex hlen bin blen = some (2 * min blen (hlen / 2), out) ∧
      out.length = hex.length ∧
      (∀ k, 2 * min blen (hlen / 2) ≤ k → out[k]? = hex[k]?) ∧
      (∀ k b, k < min blen (hlen / 2) → bin[k]? = some b →
        out[2 * k]? = chex_toxdigit (b >>> 4) ∧ out[2 * k + 1]? = chex_toxdigit b) := by
  obtain ⟨t, ht, ⟨h1, h2, h3⟩, hti, htj⟩ :=
    runLoop_inv hh (EncInv hex bin) (encodeBody_inv hh hbin hhex) blen
      { i := 0, j := 0, dst := hex } ⟨rfl, fun _ _ => rfl, fun k b hk => absurd hk (by simp)⟩
      rfl (by simp) (by simp only; omega)
  refine ⟨t.dst, by simp [chex_encode, ht, htj], h1, ?_, ?_⟩
  · intro k hk; exact h2 k (by omega)
  · intro k b hk hb; exact h3 k b (by omega) hb

/-- One iteration of `chex_decode` is defined and keeps `DecInv`. -/
theorem decodeBody_inv {charSigned : Bool} {bin hex : List Nat} {hlen blen : Nat}
    (hh : hlen < 4294967296)
    (hbin : min blen (hlen / 2) ≤ bin.length) (hhex : 2 * min blen (hlen / 2) ≤ hex.length)
    (s : LoopState) (hinv : DecInv charSigned bin hex s) (hj : s.j = 2 * s.i)
    (hi : s.i < min blen (hlen / 2)) :
    ∃ t, decodeBody charSigned hex s = some t ∧ DecInv charSigned bin hex t ∧
      t.i = s.i + 1 ∧ t.j = 2 * t.i := by
  obtain ⟨hlen', hrest, hdone⟩ := hinv
  obtain ⟨c0, hc0⟩ : ∃ c, hex[2 * s.i]? = some c :=
    ⟨_, List.getElem?_eq_getElem (show 2 * s.i < hex.length by omega)⟩
  obtain ⟨c1, hc1⟩ : ∃ c, hex[2 * s.i + 1]? = some c :=
    ⟨_, List.getElem?_eq_getElem (show 2 * s.i + 1 < hex.length by omega)⟩
  have w0 : wrapU s.j = 2 * s.i := by rw [hj]; exact wrapU_of_lt (by omega)
  have w1 : wrapU (s.j + 1) = 2 * s.i + 1 := by rw [hj]; exact wrapU_of_lt (by omega)
  have w2 : wrapU (s.j + 2) = 2 * (s.i + 1) := by rw [hj]; exact wrapU_of_lt (by omega)
  have wi : wrapU (s.i + 1) = s.i + 1 := wrapU_of_lt (by omega)
  have l0 : s.i < s.dst.length := by omega
  refine ⟨{ i := s.i + 1, j := 2 * (s.i + 1),
            dst := s.dst.set s.i (decodedByte charSigned c0 c1) }, ?_, ⟨?_, ?_, ?_⟩, rfl, rfl⟩
  · simp [decodeBody, load, store, hc0, hc1, w0, w1, w2, wi, l0, decodedByte]
  · simp only [List.length_set]; exact hlen'
  · intro k hk
    simp only at hk
    rw [List.getElem?_set_ne (by omega)]
    exact hrest k (by omega)
  · intro k d0 d1 hk hd0 hd1
    simp only at hk
    by_cases hks : k < s.i
    · rw [List.getElem?_set_ne (by omega)]
      exact hdone k d0 d1 hks hd0 hd1
    · have hke : k = s.i := by omega
      subst hke
      rw [hc0] at hd0
      rw [hc1] at hd1
      cases hd0
      cases hd1
      exact List.getElem?_set_self l0

/-- The result of `chex_decode`: the count, the written bytes, and the bytes
that are left as they were. -/
theorem chex_decode_spec (charSigned : Bool) (bin hex : List Nat) (blen hlen : Nat)
    (hh : hlen < 4294967296)
    (hbin : min blen (hlen / 2) ≤ bin.length) (hhex : 2 * min blen (hlen / 2) ≤ hex.length) :
    ∃ out, chex_decode charSigned bin blen hex hlen = some (min blen (hlen / 2), out) ∧
      out.length = bin.length ∧
      (∀ k, min blen (hlen / 2) ≤ k → out[k]? = bin[k]?) ∧
      (∀ k c0 c1, k < min blen (hlen / 2) → hex[2 * k]? = some c0 → hex[2 * k + 1]? = some c1 →
        out[k]? = some (decodedByte charSigned c0 c1)) := by
  obtain ⟨t, ht, ⟨h1, h2, h3⟩, hti, htj⟩ :=
    runLoop_inv hh (DecInv charSigned bin hex) (decodeBody_inv hh hbin hhex) blen
      { i := 0, j := 0, dst := bin }
      ⟨rfl, fun _ _ => rfl, fun k c0 c1 hk => absurd hk (by simp)⟩
      rfl (by simp) (by simp only; omega)
  refine ⟨t.dst, by simp [chex_decode, ht, hti], h1, ?_, ?_⟩
  · intro k hk; exact h2 k (by omega)
  · intro k c0 c1 hk h0 h1; exact h3 k c0 c1 (by omega) h0 h1

/-- A 7-bit character converts to itself for either signedness of `char`. -/
theorem charToUnsigned_of_lt {c : Nat} (charSigned : Bool) (h : c < 128) :
    charToUnsigned charSigned c = c := by
  unfold charToUnsigned
  rw [if_neg]
  omega

/-- A valid hex digit decodes to its numeric value. -/
theorem chex_fromxdigit_hexDigit {c : Nat} (h : IsHexDigitChar c) :
    chex_fromxdigit c = hexDigitValue c ∧ hexDigitValue c < 16 := by
  rcases h with ⟨h1, h2⟩ | ⟨h1, h2⟩ | ⟨h1, h2⟩ <;> interval_cases c <;> decide

/-- The lowercase digit of a nibble decodes to that nibble. -/
theorem chex_fromxdigit_lowerHexDigit {v : Nat} (h : v < 16) :
    chex_fromxdigit (lowerHexDigit v) = v ∧ lowerHexDigit v < 128 := by
  interval_cases v <;> decide

set_option maxRecDepth 100000 in
/-- On two nibbles, `(hi << 4) | lo` is `16 * hi + lo` and fits a byte. -/
theorem pack_nibbles : ∀ hi, hi < 16 → ∀ lo, lo < 16 →
    toUChar ((hi <<< 4) ||| lo) = 16 * hi + lo := by decide

/-- The byte packed from two valid hex digits. -/
theorem decodedByte_hexDigit (charSigned : Bool) {c0 c1 : Nat} (h0 : IsHexDigitChar c0)
    (h1 : IsHexDigitChar c1) :
    decodedByte charSigned c0 c1 = 16 * hexDigitValue c0 + hexDigitValue c1 := by
  have k0 : c0 < 128 := by unfold IsHexDigitChar at h0; omega
  have k1 : c1 < 128 := by unfold IsHexDigitChar at h1; omega
  unfold decodedByte
  rw [charToUnsigned_of_lt _ k0, charToUnsigned_of_lt _ k1,
    (chex_fromxdigit_hexDigit h0).1, (chex_fromxdigit_hexDigit h1).1]
  exact pack_nibbles _ (chex_fromxdigit_hexDigit h0).2 _ (chex_fromxdigit_hexDigit h1).2

/-- The byte packed from the two digits that `chex_encode` writes for `b` is `b`. -/
theorem decodedByte_lowerHexDigit (charSigned : Bool) {b : Nat} (hb : b < 256) :
    decodedByte charSigned (lowerHexDigit (b >>> 4 % 16)) (lowerHexDigit (b % 16)) = b := by
  have q : b >>> 4 = b / 16 := Nat.shiftRight_eq_div_pow b 4
  have v0 : b >>> 4 % 16 < 16 := Nat.mod_lt _ (by decide)
  have v1 : b % 16 < 16 := Nat.mod_lt _ (by decide)
  unfold decodedByte
  rw [charToUnsigned_of_lt _ (chex_fromxdigit_lowerHexDigit v0).2,
    charToUnsigned_of_lt _ (chex_fromxdigit_lowerHexDigit v1).2,
    (chex_fromxdigit_lowerHexDigit v0).1, (chex_fromxdigit_lowerHexDigit v1).1,
    pack_nibbles _ v0 _ v1, q]
  omega

/-- A list whose first cells agree with those of `m` has `m` as a prefix. -/
theorem take_eq_of_lookup {l m : List Nat} (h : ∀ k, k < m.length → l[k]? = m[k]?) :
    l.take m.length = m := by
  apply List.ext_getElem?
  intro k
  by_cases hk : k < m.length
  · rw [List.getElem?_take_of_lt hk]; exact h k hk
  · rw [List.getElem?_take_eq_none (by omega), List.getElem?_eq_none (by omega)]

/-! ## Iterations of the loop -/

/-- A loop that reaches, after `n` iterations, a state in which the guard fails
returns that state, whatever fuel of at least `n` it is given. -/
theorem runLoop_of_loopIter {hlen blen : Nat} {body : LoopState → Option LoopState} :
    ∀ (n fuel : Nat) (s t : LoopState), loopIter hlen blen body n s = some t →
      loopGuard hlen blen t = false → n ≤ fuel → runLoop hlen blen body fuel s = some t := by
  intro n
  induction n with
  | zero =>
    intro fuel s t hit hg _
    simp only [loopIter, Option.some.injEq] at hit
    subst hit
    cases fuel <;> simp [runLoop, hg]
  | succ n ih =>
    intro fuel s t hit hg hfuel
    obtain ⟨fuel1, rfl⟩ : ∃ f, fuel = f + 1 := ⟨fuel - 1, by omega⟩
    by_cases hgs : loopGuard hlen blen s = true
    · simp only [loopIter, hgs, if_true] at hit
      cases hb : body s with
      | none => rw [hb] at hit; simp at hit
      | some u =>
        rw [hb] at hit
        simp only [Option.some_bind] at hit
        have := ih fuel1 u t hit hg (by omega)
        simp [runLoop, hgs, hb, this]
    · simp [loopIter, hgs] at hit

/-- The rule of `runLoop_inv` for a given number of iterations: `n` iterations
are possible exactly while `i + n` does not pass `min blen (hlen / 2)`, and they
keep `Inv`, add `n` to `i` and keep `j = 2 * i`. -/
theorem loopIter_inv {hlen blen : Nat} {body : LoopState → Option LoopState}
    (hh : hlen < 4294967296) (Inv : LoopState → Prop)
    (hbody : ∀ s, Inv s → s.j = 2 * s.i → s.i < min blen (hlen / 2) →
      ∃ t, body s = some t ∧ Inv t ∧ t.i = s.i + 1 ∧ t.j = 2 * t.i) :
    ∀ (n : Nat) (s : LoopState), Inv s → s.j = 2 * s.i → s.i ≤ min blen (hlen / 2) →
      (s.i + n ≤ min blen (hlen / 2) →
        ∃ t, loopIter hlen blen body n s = some t ∧ Inv t ∧ t.i = s.i + n ∧ t.j = 2 * t.i) ∧
      (min blen (hlen / 2) < s.i + n → loopIter hlen blen body n s = none) := by
  intro n
  induction n with
  | zero =>
    intro s hinv hj hi
    exact ⟨fun _ => ⟨s, rfl, hinv, rfl, hj⟩, fun h => by omega⟩
  | succ n ih =>
    intro s hinv hj hi
    by_cases hlt : s.i < min blen (hlen / 2)
    · have hg : loopGuard hlen blen s = true := (loopGuard_iff hh hj hi).2 hlt
      obtain ⟨t, hbt, hinvt, hti, htj⟩ := hbody s hinv hj hlt
      obtain ⟨ih1, ih2⟩ := ih t hinvt htj (by omega)
      refine ⟨fun h => ?_, fun h => ?_⟩
      · obtain ⟨u, hu, hinvu, hui, huj⟩ := ih1 (by omega)
        exact ⟨u, by simp [loopIter, hg, hbt, hu], hinvu, by omega, huj⟩
      · simp [loopIter, hg, hbt, ih2 (by omega)]
    · have hg : ¬ loopGuard hlen blen s = true := by
        rw [loopGuard_iff hh hj hi]; exact hlt
      exact ⟨fun h => by omega, fun _ => by simp [loopIter, hg]⟩

/-- The digit of a nibble is one of the 16 lowercase hex digits. -/
theorem isLowerHexDigitChar_lowerHexDigit {v : Nat} (h : v < 16) :
    IsLowerHexDigitChar (lowerHexDigit v) := by
  interval_cases v <;> decide

/-- The initial state of the encode loop satisfies its invariant. -/
theorem encInv_init (hex bin : List Nat) : EncInv hex bin { i := 0, j := 0, dst := hex } :=
  ⟨rfl, fun _ _ => rfl, fun k _ hk => absurd hk (by simp)⟩

/-- The initial state of the decode loop satisfies its invariant. -/
theorem decInv_init (charSigned : Bool) (bin hex : List Nat) :
    DecInv charSigned bin hex { i := 0, j := 0, dst := bin } :=
  ⟨rfl, fun _ _ => rfl, fun k _ _ hk => absurd hk (by simp)⟩

/-- The loop rule in terms of iterations: under the hypotheses of `runLoop_inv`
the loop started with `i = 0`, `j = 0` runs exactly `min blen (hlen / 2)`
iterations without wraparound. -/
theorem runsWithoutWrap_of_inv {hlen blen : Nat} {body : LoopState → Option LoopState}
    (hh : hlen < 4294967296) (Inv : LoopState → Prop)
    (hbody : ∀ s, Inv s → s.j = 2 * s.i → s.i < min blen (hlen / 2) →
      ∃ t, body s = some t ∧ Inv t ∧ t.i = s.i + 1 ∧ t.j = 2 * t.i)
    (dst : List Nat) (hinit : Inv { i := 0, j := 0, dst := dst }) :
    RunsWithoutWrap hlen blen body { i := 0, j := 0, dst := dst } (min blen (hlen / 2)) := by
  have key := fun n => loopIter_inv hh Inv hbody n { i := 0, j := 0, dst := dst } hinit rfl
    (Nat.zero_le _)
  have facts : ∀ n, n ≤ min blen (hlen / 2) →
      ∃ s, loopIter hlen blen body n { i := 0, j := 0, dst := dst } = some s ∧ s.i = n ∧
        s.j = 2 * n ∧ (loopGuard hlen blen s = true ↔ n < min blen (hlen / 2)) := by
    intro n hn
    obtain ⟨s, hs, -, hsi, hsj⟩ := (key n).1 (by simpa using hn)
    simp only [Nat.zero_add] at hsi
    refine ⟨s, hs, hsi, by rw [hsj, hsi], ?_⟩
    rw [loopGuard_iff hh hsj (by omega), hsi]
  refine ⟨?_, ?_, ?_⟩
  · intro n hn
    obtain ⟨s, hs, hsi, hsj, hg⟩ := facts n hn
    have hw1 : wrapU (s.j + 1) = s.j + 1 := wrapU_of_lt (by omega)
    refine ⟨s, hs, hsi, hsj, by omega, hw1, ?_, ?_, hg, ?_⟩
    · rw [hw1]; omega
    · rw [hg]; omega
    · intro hgt
      have := hg.1 hgt
      exact ⟨wrapU_of_lt (by omega), wrapU_of_lt (by omega)⟩
  · intro n hn
    exact (key n).2 (by simpa using hn)
  · obtain ⟨t, ht, -, -, hg⟩ := facts _ (Nat.le_refl (min blen (hlen / 2)))
    have hgf : loopGuard hlen blen t = false := by
      cases hgt : loopGuard hlen blen t
      · rfl
      · exact absurd (hg.1 hgt) (Nat.lt_irrefl _)
    exact ⟨t, ht, hgf, runLoop_of_loopIter _ blen _ t ht hgf (Nat.min_le_left _ _)⟩

/-- Along two lists related cell by cell, a cell of the first has a related cell
at the same index of the second. -/
theorem forallTwo_lookup {R : Nat → Nat → Prop} {l1 l2 : List Nat}
    (h : List.Forall₂ R l1 l2) :
    ∀ (k c : Nat), l1[k]? = some c → ∃ d, l2[k]? = some d ∧ R c d := by
  induction h with
  | nil => intro k c hc; simp at hc
  | cons hab _ ih =>
    intro k c hc
    cases k with
    | zero =>
      simp only [List.getElem?_cons_zero, Option.some.injEq] at hc
      subst hc
      exact ⟨_, List.getElem?_cons_zero, hab⟩
    | succ k =>
      simp only [List.getElem?_cons_succ] at hc
      simpa using ih k c hc

/-- A case variant of a valid hex digit is a valid hex digit of the same value. -/
theorem caseVariant_hexDigit {c d : Nat} (hc : IsHexDigitChar c) (hv : CaseVariant c d) :
    IsHexDigitChar d ∧ hexDigitValue d = hexDigitValue c := by
  rcases hc with ⟨h1, h2⟩ | ⟨h1, h2⟩ | ⟨h1, h2⟩ <;> interval_cases c <;>
    rcases hv with rfl | rfl | rfl <;> decide

/-- The lowercase digit of the value of a valid hex digit is that digit in
lowercase. -/
theorem lowerHexDigit_hexDigitValue {c : Nat} (hc : IsHexDigitChar c) :
    lowerHexDigit (hexDigitValue c) = toLower c := by
  rcases hc with ⟨h1, h2⟩ | ⟨h1, h2⟩ | ⟨h1, h2⟩ <;> interval_cases c <;> decide

/-- A lowercase hex digit is not changed by `to_lower`. -/
theorem toLower_of_lower {c : Nat} (hc : IsLowerHexDigitChar c) : toLower c = c := by
  unfold IsLowerHexDigitChar at hc
  unfold toLower
  rw [if_neg]
  omega

/-! ## The character primitives -/

/-- C2: for every one of the 256 byte values `c`, also those from `0x80` on,
`chex_isxdigit c` is nonzero exactly when `c` is one of the characters
`'0'..'9'`, `'a'..'f'`, `'A'..'F'`; there are 22 such byte values.  The same holds
when `c` is the pattern of a `char` converted to the `unsigned` parameter, for
either signedness of plain `char`. -/
theorem chex_isxdigit_iff_hexDigit (c : Nat) (hc : c < 256) :
    (chex_isxdigit c ≠ 0 ↔ IsHexDigitChar c) ∧
      (∀ charSigned, chex_isxdigit (charToUnsigned charSigned c) ≠ 0 ↔ IsHexDigitChar c) ∧
      ((List.range 256).filter fun d => decide (chex_isxdigit d ≠ 0)).length = 22 := by
  refine ⟨?_, ?_, by decide⟩
  · interval_cases c <;> decide
  · intro charSigned
    interval_cases c <;> cases charSigned <;> decide

theorem chex_isxdigit_iff_hexDigit_witness :
    (0xe6 < 256) ∧ ((chex_isxdigit 0xe6 ≠ 0 ↔ IsHexDigitChar 0xe6) ∧
      (∀ charSigned, chex_isxdigit (charToUnsigned charSigned 0xe6) ≠ 0 ↔
        IsHexDigitChar 0xe6) ∧
      ((List.range 256).filter fun d => decide (chex_isxdigit d ≠ 0)).length = 22) :=
  ⟨by decide, chex_isxdigit_iff_hexDigit 0xe6 (by decide)⟩

/-- C3: for every nibble value `v` in `0..15`, `chex_toxdigit v` is the lowercase
digit `c` of `v`, `chex_fromxdigit c = v` and `chex_fromxdigit (to_upper c) = v`;
and for every valid hex digit `d`, in either case, `chex_fromxdigit d` is the
numeric value of `d`, a number in `0..15`. -/
theorem chex_fromxdigit_toxdigit (charSigned : Bool) (v d : Nat) (hv : v < 16)
    (hd : IsHexDigitChar d) :
    (∃ c, chex_toxdigit v = some c ∧ c = lowerHexDigit v ∧
      chex_fromxdigit (charToUnsigned charSigned c) = v ∧
      chex_fromxdigit (charToUnsigned charSigned (toUpper c)) = v) ∧
    chex_fromxdigit (charToUnsigned charSigned d) = hexDigitValue d ∧
    hexDigitValue d ≤ 15 := by
  refine ⟨⟨lowerHexDigit v, ?_, rfl, ?_, ?_⟩, ?_, ?_⟩
  · interval_cases v <;> decide
  · interval_cases v <;> cases charSigned <;> decide
  · interval_cases v <;> cases charSigned <;> decide
  · have hlt : d < 128 := by unfold IsHexDigitChar at hd; omega
    rw [charToUnsigned_of_lt _ hlt]
    exact (chex_fromxdigit_hexDigit hd).1
  · have := (chex_fromxdigit_hexDigit hd).2
    omega

theorem chex_fromxdigit_toxdigit_witness :
    (∃ c, chex_toxdigit 11 = some c ∧ c = lowerHexDigit 11 ∧
      chex_fromxdigit (charToUnsigned true c) = 11 ∧
      chex_fromxdigit (charToUnsigned true (toUpper c)) = 11) ∧
    chex_fromxdigit (charToUnsigned true 70) = hexDigitValue 70 ∧
    hexDigitValue 70 ≤ 15 :=
  chex_fromxdigit_toxdigit true 11 70 (by decide) (by decide)

/-- C10: for every argument `n`, `chex_toxdigit n` is the character at index
`n mod 16` of `"0123456789abcdef"`; it equals `chex_toxdigit (n & 0xf)`, it does
not depend on the bits above the low four, and the index `n & 0xf` lies within
the 16 characters of the table. -/
theorem chex_toxdigit_lookup (n : Nat) :
    (∃ c, chex_toxdigit n = some c ∧
      ("0123456789abcdef".toList.map Char.toNat)[n % 16]? = some c) ∧
    chex_toxdigit n = chex_toxdigit (n &&& 0xf) ∧
    (∀ m, chex_toxdigit (16 * m + n % 16) = chex_toxdigit n) ∧
    (n &&& 0xf) < "0123456789abcdef".length ∧
    lut = "0123456789abcdef".toList.map Char.toNat ++ [0] := by
  have hand : n &&& 0xf = n % 16 := Nat.and_pow_two_sub_one_eq_mod n 4
  have hlt : n % 16 < 16 := Nat.mod_lt _ (by decide)
  refine ⟨⟨lowerHexDigit (n % 16), chex_toxdigit_eq n, ?_⟩, ?_, ?_, ?_, by decide⟩
  · generalize n % 16 = k at hlt
    interval_cases k <;> decide
  · rw [chex_toxdigit_eq, chex_toxdigit_eq, hand, Nat.mod_mod]
  · intro m
    rw [chex_toxdigit_eq, chex_toxdigit_eq]
    congr 2
    omega
  · rw [hand]
    exact hlt

/-! ## The bulk operations

The two lengths are values of type `unsigned`.  The theorems below assume
`hlen < 2^32`; none of them needs the bound on `blen`, because the loop is left
after at most `hlen / 2` iterations.  A source buffer holds at least as many
cells as its declared length, and a destination at least as many as are
written. -/

/-- C1: round trip.  For every byte sequence `B` of length `n` with `2 * n` below
`2^32`, every encode capacity `hlen ≥ 2 * n` and every decode capacity
`blen ≥ n`, `chex_encode` of `B` returns `2 * n`, and `chex_decode` of the `2 * n`
characters just written returns `n` and leaves the first `n` bytes of its
destination equal to `B`. -/
theorem chex_decode_encode (charSigned : Bool) (B hex out : List Nat) (hlen blen : Nat)
    (hB : ∀ b ∈ B, b < 256) (h2n : 2 * B.length < 4294967296)
    (hh : hlen < 4294967296) (hhlen : 2 * B.length ≤ hlen) (hblen : B.length ≤ blen)
    (hhex : 2 * B.length ≤ hex.length) (hout : B.length ≤ out.length) :
    ∃ hex1 out1, chex_encode hex hlen B B.length = some (2 * B.length, hex1) ∧
      chex_decode charSigned out blen hex1 (2 * B.length) = some (B.length, out1) ∧
      out1.take B.length = B := by
  have hm : min B.length (hlen / 2) = B.length := by omega
  have hm2 : min blen (2 * B.length / 2) = B.length := by omega
  obtain ⟨hex1, he, hl, -, hw⟩ := chex_encode_spec hex B hlen B.length hh
    (by rw [hm]) (by rw [hm]; exact hhex)
  obtain ⟨out1, hd, -, -, hr⟩ := chex_decode_spec charSigned out hex1 blen (2 * B.length) h2n
    (by rw [hm2]; exact hout) (by rw [hm2, hl]; exact hhex)
  rw [hm] at he hw
  rw [hm2] at hd hr
  refine ⟨hex1, out1, he, hd, take_eq_of_lookup ?_⟩
  intro k hk
  obtain ⟨b, hb⟩ : ∃ b, B[k]? = some b := ⟨_, List.getElem?_eq_getElem hk⟩
  have hb256 : b < 256 := hB b (List.getElem?_mem hb)
  obtain ⟨h0, h1⟩ := hw k b hk hb
  rw [chex_toxdigit_eq] at h0 h1
  rw [hr k _ _ hk h0 h1, hb, decodedByte_lowerHexDigit charSigned hb256]

theorem chex_decode_encode_witness :
    ∃ hex1 out1, chex_encode [0, 0, 0, 0, 0, 0, 0] 7 [0x00, 0x7f, 0xff] [0x00, 0x7f, 0xff].length
        = some (2 * [0x00, 0x7f, 0xff].length, hex1) ∧
      chex_decode true [1, 1, 1, 1] 4 hex1 (2 * [0x00, 0x7f, 0xff].length)
        = some ([0x00, 0x7f, 0xff].length, out1) ∧
      out1.take [0x00, 0x7f, 0xff].length = [0x00, 0x7f, 0xff] :=
  chex_decode_encode true [0x00, 0x7f, 0xff] [0, 0, 0, 0, 0, 0, 0] [1, 1, 1, 1] 7 4
    (by decide) (by decide) (by decide) (by decide) (by decide) (by decide) (by decide)

/-- C6: for all 32-bit `hlen` and `blen`, `chex_encode` returns exactly
`2 * min blen (hlen / 2)`; the returned count is even, at most `hlen`, at most
`2 * blen`, and it is `2 * blen` whenever `hlen ≥ 2 * blen`. -/
theorem chex_encode_count (hex bin : List Nat) (hlen blen : Nat) (hh : hlen < 4294967296)
    (hbin : blen ≤ bin.length) (hhex : hlen ≤ hex.length) :
    ∃ r hex1, chex_encode hex hlen bin blen = some (r, hex1) ∧
      r = 2 * min blen (hlen / 2) ∧ r % 2 = 0 ∧ r ≤ hlen ∧ r ≤ 2 * blen ∧
      (2 * blen ≤ hlen → r = 2 * blen) := by
  obtain ⟨hex1, he, -⟩ := chex_encode_spec hex bin hlen blen hh (by omega) (by omega)
  exact ⟨_, hex1, he, rfl, by omega, by omega, by omega, fun h => by omega⟩

theorem chex_encode_count_witness :
    ∃ r hex1, chex_encode [0, 0, 0, 0, 0] 5 [0x12, 0x34, 0x56] 3 = some (r, hex1) ∧
      r = 2 * min 3 (5 / 2) ∧ r % 2 = 0 ∧ r ≤ 5 ∧ r ≤ 2 * 3 ∧ (2 * 3 ≤ 5 → r = 2 * 3) :=
  chex_encode_count [0, 0, 0, 0, 0] [0x12, 0x34, 0x56] 5 3 (by decide) (by decide) (by decide)

/-- C7: for all 32-bit `blen` and `hlen`, `chex_decode` returns exactly
`min blen (hlen / 2)`; the returned count is at most `blen`, at most `hlen / 2`,
and it is `hlen / 2` whenever `blen ≥ hlen / 2`. -/
theorem chex_decode_count (charSigned : Bool) (bin hex : List Nat) (blen hlen : Nat)
    (hh : hlen < 4294967296) (hbin : blen ≤ bin.length) (hhex : hlen ≤ hex.length) :
    ∃ r bin1, chex_decode charSigned bin blen hex hlen = some (r, bin1) ∧
      r = min blen (hlen / 2) ∧ r ≤ blen ∧ r ≤ hlen / 2 ∧
      (hlen / 2 ≤ blen → r = hlen / 2) := by
  obtain ⟨bin1, hd, -⟩ := chex_decode_spec charSigned bin hex blen hlen hh (by omega) (by omega)
  exact ⟨_, bin1, hd, rfl, by omega, by omega, fun h => by omega⟩

theorem chex_decode_count_witness :
    ∃ r bin1, chex_decode false [0, 0] 2 [49, 50, 51, 52, 53, 54, 55] 7 = some (r, bin1) ∧
      r = min 2 (7 / 2) ∧ r ≤ 2 ∧ r ≤ 7 / 2 ∧ (7 / 2 ≤ 2 → r = 7 / 2) :=
  chex_decode_count false [0, 0] [49, 50, 51, 52, 53, 54, 55] 2 7
    (by decide) (by decide) (by decide)

/-- C8: truncation on encode.  For all `hlen` and `blen` with `hlen < 2 * blen`,
`chex_encode` returns exactly `hlen - hlen % 2`, that is `hlen` rounded down to
even; it returns a result and does not fail. -/
theorem chex_encode_truncates (hex bin : List Nat) (hlen blen : Nat)
    (hh : hlen < 4294967296) (hbin : blen ≤ bin.length) (hhex : hlen ≤ hex.length)
    (hlt : hlen < 2 * blen) :
    ∃ hex1, chex_encode hex hlen bin blen = some (hlen - hlen % 2, hex1) := by
  obtain ⟨hex1, he, -⟩ := chex_encode_spec hex bin hlen blen hh (by omega) (by omega)
  have hr : 2 * min blen (hlen / 2) = hlen - hlen % 2 := by omega
  rw [hr] at he
  exact ⟨hex1, he⟩

theorem chex_encode_truncates_witness :
    ∃ hex1, chex_encode [0, 0, 0, 0, 0] 5 [0x12, 0x34, 0x56] 3 = some (5 - 5 % 2, hex1) :=
  chex_encode_truncates [0, 0, 0, 0, 0] [0x12, 0x34, 0x56] 5 3
    (by decide) (by decide) (by decide) (by decide)

/-- C9: boundary.  For `hlen = 0` and for `hlen = 1`, and for every source buffer
of every length `blen`, `chex_encode` returns 0 and leaves every character of
the destination as it was. -/
theorem chex_encode_no_room (hex bin : List Nat) (hlen blen : Nat)
    (hh : hlen = 0 ∨ hlen = 1) :
    chex_encode hex hlen bin blen = some (0, hex) := by
  have hg : loopGuard hlen blen { i := 0, j := 0, dst := hex } = false := by
    have hw : wrapU (0 + 1) = 1 := by decide
    simp only [loopGuard, hw, Bool.and_eq_false_iff, decide_eq_false_iff_not]
    omega
  unfold chex_encode
  cases blen <;> simp [runLoop, hg]

theorem chex_encode_no_room_witness :
    chex_encode [7, 7, 7] 1 [0xab, 0xcd] 2 = some (0, [7, 7, 7]) :=
  chex_encode_no_room [7, 7, 7] [0xab, 0xcd] 1 2 (by decide)

/-- C4: for every byte buffer `bin` of length `blen` and every capacity `hlen`,
after `r = chex_encode(hex, hlen, bin, blen)`, for every `k < r / 2` the character
`hex[2k]` is the lowercase hex digit of the high nibble `bin[k] >> 4` and
`hex[2k+1]` is the lowercase hex digit of the low nibble `bin[k] & 0xf`.  In
particular encoding `[0xDE, 0xAD, 0xBE, 0xEF]` with `hlen ≥ 8` writes `"deadbeef"`
and returns 8, encoding `[0x0A]` writes `"0a"`, and encoding zero bytes
returns 0. -/
theorem chex_encode_digits (hex bin : List Nat) (hlen blen : Nat) (hh : hlen < 4294967296)
    (hbytes : ∀ b ∈ bin, b < 256) (hbin : blen ≤ bin.length) (hhex : hlen ≤ hex.length) :
    ∃ r hex1, chex_encode hex hlen bin blen = some (r, hex1) ∧
      (∀ k, k < r / 2 → ∃ b, bin[k]? = some b ∧
        hex1[2 * k]? = some (lowerHexDigit (b >>> 4)) ∧
        hex1[2 * k + 1]? = some (lowerHexDigit (b &&& 0xf))) ∧
      (bin = [0xDE, 0xAD, 0xBE, 0xEF] → blen = 4 → 8 ≤ hlen →
        r = 8 ∧ hex1.take 8 = "deadbeef".toList.map Char.toNat) ∧
      (bin = [0x0A] → blen = 1 → 2 ≤ hlen →
        r = 2 ∧ hex1.take 2 = "0a".toList.map Char.toNat) ∧
      (blen = 0 → r = 0 ∧ hex1 = hex) := by
  obtain ⟨hex1, he, hl, hrest, hw⟩ :=
    chex_encode_spec hex bin hlen blen hh (by omega) (by omega)
  refine ⟨_, hex1, he, ?_, ?_, ?_, ?_⟩
  · intro k hk
    have hkm : k < min blen (hlen / 2) := by omega
    obtain ⟨b, hb⟩ : ∃ b, bin[k]? = some b :=
      ⟨_, List.getElem?_eq_getElem (show k < bin.length by omega)⟩
    have hb256 : b < 256 := hbytes b (List.getElem?_mem hb)
    have hhi : b >>> 4 % 16 = b >>> 4 := by
      rw [Nat.shiftRight_eq_div_pow]
      omega
    have hlo : b % 16 = b &&& 0xf := (Nat.and_pow_two_sub_one_eq_mod b 4).symm
    obtain ⟨h0, h1⟩ := hw k b hkm hb
    rw [chex_toxdigit_eq] at h0 h1
    rw [hhi] at h0
    rw [hlo] at h1
    exact ⟨b, hb, h0, h1⟩
  · intro hb hn hcap
    subst hb hn
    have hm : min 4 (hlen / 2) = 4 := by omega
    rw [hm] at hw
    refine ⟨by omega, ?_⟩
    have p0 := hw 0 0xDE (by decide) rfl
    have p1 := hw 1 0xAD (by decide) rfl
    have p2 := hw 2 0xBE (by decide) rfl
    have p3 := hw 3 0xEF (by decide) rfl
    refine take_eq_of_lookup (m := "deadbeef".toList.map Char.toNat) ?_
    intro k hk
    have hk8 : k < 8 := hk
    interval_cases k
    · exact p0.1
    · exact p0.2
    · exact p1.1
    · exact p1.2
    · exact p2.1
    · exact p2.2
    · exact p3.1
    · exact p3.2
  · intro hb hn hcap
    subst hb hn
    have hm : min 1 (hlen / 2) = 1 := by omega
    rw [hm] at hw
    refine ⟨by omega, ?_⟩
    have p0 := hw 0 0x0A (by decide) rfl
    refine take_eq_of_lookup (m := "0a".toList.map Char.toNat) ?_
    intro k hk
    have hk2 : k < 2 := hk
    interval_cases k
    · exact p0.1
    · exact p0.2
  · intro hn
    subst hn
    refine ⟨by omega, ?_⟩
    apply List.ext_getElem?
    intro k
    exact hrest k (by omega)

theorem chex_encode_digits_witness :
    ∃ r hex1, chex_encode [0, 0, 0, 0, 0, 0, 0, 0, 0] 9 [0xDE, 0xAD, 0xBE, 0xEF] 4
        = some (r, hex1) ∧
      (∀ k, k < r / 2 → ∃ b, [0xDE, 0xAD, 0xBE, 0xEF][k]? = some b ∧
        hex1[2 * k]? = some (lowerHexDigit (b >>> 4)) ∧
        hex1[2 * k + 1]? = some (lowerHexDigit (b &&& 0xf))) ∧
      ([0xDE, 0xAD, 0xBE, 0xEF] = [0xDE, 0xAD, 0xBE, 0xEF] → 4 = 4 → 8 ≤ 9 →
        r = 8 ∧ hex1.take 8 = "deadbeef".toList.map Char.toNat) ∧
      ([0xDE, 0xAD, 0xBE, 0xEF] = [0x0A] → 4 = 1 → 2 ≤ 9 →
        r = 2 ∧ hex1.take 2 = "0a".toList.map Char.toNat) ∧
      (4 = 0 → r = 0 ∧ hex1 = [0, 0, 0, 0, 0, 0, 0, 0, 0]) :=
  chex_encode_digits [0, 0, 0, 0, 0, 0, 0, 0, 0] [0xDE, 0xAD, 0xBE, 0xEF] 9 4
    (by decide) (by decide) (by decide) (by decide)

/-- C5: for every hex buffer whose `hlen` characters are all valid hex digits and
every capacity `blen`, after `r = chex_decode(bin, blen, hex, hlen)`,
for every `i < r` the byte `bin[i]` equals
`16 * value(hex[2i]) + value(hex[2i+1])`.  In particular decoding `"deadbeef"`,
`"DEADBEEF"` or `"DeAdBeEf"` with `blen ≥ 4` yields `[0xDE, 0xAD, 0xBE, 0xEF]` and
returns 4. -/
theorem chex_decode_bytes (charSigned : Bool) (bin hex : List Nat) (blen hlen : Nat)
    (hh : hlen < 4294967296) (hvalid : ∀ c ∈ hex.take hlen, IsHexDigitChar c)
    (hbin : blen ≤ bin.length) (hhex : hlen ≤ hex.length) :
    ∃ r bin1, chex_decode charSigned bin blen hex hlen = some (r, bin1) ∧
      (∀ i, i < r → ∃ c0 c1, hex[2 * i]? = some c0 ∧ hex[2 * i + 1]? = some c1 ∧
        bin1[i]? = some (16 * hexDigitValue c0 + hexDigitValue c1)) ∧
      ((hex = "deadbeef".toList.map Char.toNat ∨ hex = "DEADBEEF".toList.map Char.toNat ∨
          hex = "DeAdBeEf".toList.map Char.toNat) → hlen = 8 → 4 ≤ blen →
        r = 4 ∧ bin1.take 4 = [0xDE, 0xAD, 0xBE, 0xEF]) := by
  obtain ⟨bin1, hd, hl, hrest, hw⟩ :=
    chex_decode_spec charSigned bin hex blen hlen hh (by omega) (by omega)
  have hpt : ∀ i, i < min blen (hlen / 2) → ∃ c0 c1, hex[2 * i]? = some c0 ∧
      hex[2 * i + 1]? = some c1 ∧
      bin1[i]? = some (16 * hexDigitValue c0 + hexDigitValue c1) := by
    intro i hi
    obtain ⟨c0, hc0⟩ : ∃ c, hex[2 * i]? = some c :=
      ⟨_, List.getElem?_eq_getElem (show 2 * i < hex.length by omega)⟩
    obtain ⟨c1, hc1⟩ : ∃ c, hex[2 * i + 1]? = some c :=
      ⟨_, List.getElem?_eq_getElem (show 2 * i + 1 < hex.length by omega)⟩
    have hv0 : IsHexDigitChar c0 := hvalid c0
      (List.getElem?_mem ((List.getElem?_take_of_lt (show 2 * i < hlen by omega)).trans hc0))
    have hv1 : IsHexDigitChar c1 := hvalid c1
      (List.getElem?_mem ((List.getElem?_take_of_lt (show 2 * i + 1 < hlen by omega)).trans hc1))
    refine ⟨c0, c1, hc0, hc1, ?_⟩
    rw [hw i c0 c1 hi hc0 hc1, decodedByte_hexDigit charSigned hv0 hv1]
  refine ⟨_, bin1, hd, hpt, ?_⟩
  intro hcases hn hcap
  subst hn
  have hm : min blen (8 / 2) = 4 := by omega
  rw [hm] at hpt
  refine ⟨hm, ?_⟩
  refine take_eq_of_lookup (m := [0xDE, 0xAD, 0xBE, 0xEF]) ?_
  intro k hk
  have hk4 : k < 4 := hk
  obtain ⟨c0, c1, h0, h1, hb⟩ := hpt k hk4
  rw [hb]
  rcases hcases with h | h | h <;> subst h <;> interval_cases k <;>
    (cases h0; cases h1; rfl)

theorem chex_decode_bytes_witness :
    ∃ r bin1, chex_decode true [0, 0, 0, 0, 0] 5 ("DeAdBeEf".toList.map Char.toNat) 8
        = some (r, bin1) ∧
      (∀ i, i < r → ∃ c0 c1, ("DeAdBeEf".toList.map Char.toNat)[2 * i]? = some c0 ∧
        ("DeAdBeEf".toList.map Char.toNat)[2 * i + 1]? = some c1 ∧
        bin1[i]? = some (16 * hexDigitValue c0 + hexDigitValue c1)) ∧
      (("DeAdBeEf".toList.map Char.toNat = "deadbeef".toList.map Char.toNat ∨
          "DeAdBeEf".toList.map Char.toNat = "DEADBEEF".toList.map Char.toNat ∨
          "DeAdBeEf".toList.map Char.toNat = "DeAdBeEf".toList.map Char.toNat) → 8 = 8 → 4 ≤ 5 →
        r = 4 ∧ bin1.take 4 = [0xDE, 0xAD, 0xBE, 0xEF]) :=
  chex_decode_bytes true [0, 0, 0, 0, 0] ("DeAdBeEf".toList.map Char.toNat) 5 8
    (by decide) (by decide) (by decide) (by decide)

/-- C11: for every input byte buffer and every capacity, every character that
`chex_encode` writes, that is every `hex[k]` with `k` below the returned count, is
one of the 16 lowercase hex digits `'0'..'9'`, `'a'..'f'`; none is an uppercase
letter. -/
theorem chex_encode_lowercase (hex bin : List Nat) (hlen blen : Nat)
    (hh : hlen < 4294967296) (hbin : blen ≤ bin.length) (hhex : hlen ≤ hex.length) :
    ∃ r hex1, chex_encode hex hlen bin blen = some (r, hex1) ∧
      ∀ k, k < r → ∃ c, hex1[k]? = some c ∧ IsLowerHexDigitChar c ∧ ¬ (65 ≤ c ∧ c ≤ 90) := by
  obtain ⟨hex1, he, -, -, hw⟩ :=
    chex_encode_spec hex bin hlen blen hh (by omega) (by omega)
  refine ⟨_, hex1, he, ?_⟩
  intro k hk
  have hkm : k / 2 < min blen (hlen / 2) := by omega
  obtain ⟨b, hb⟩ : ∃ b, bin[k / 2]? = some b :=
    ⟨_, List.getElem?_eq_getElem (show k / 2 < bin.length by omega)⟩
  obtain ⟨h0, h1⟩ := hw (k / 2) b hkm hb
  rw [chex_toxdigit_eq] at h0 h1
  have low : ∀ v, v < 16 → IsLowerHexDigitChar (lowerHexDigit v) ∧
      ¬ (65 ≤ lowerHexDigit v ∧ lowerHexDigit v ≤ 90) := by
    intro v hv
    have := isLowerHexDigitChar_lowerHexDigit hv
    refine ⟨this, ?_⟩
    unfold IsLowerHexDigitChar at this
    omega
  rcases Nat.mod_two_eq_zero_or_one k with hpar | hpar
  · have hk2 : 2 * (k / 2) = k := by omega
    rw [hk2] at h0
    exact ⟨_, h0, low _ (Nat.mod_lt _ (by decide))⟩
  · have hk2 : 2 * (k / 2) + 1 = k := by omega
    rw [hk2] at h1
    exact ⟨_, h1, low _ (Nat.mod_lt _ (by decide))⟩

theorem chex_encode_lowercase_witness :
    ∃ r hex1, chex_encode [65, 66, 67, 68, 69, 70] 6 [0xAB, 0xCD, 0xEF] 3 = some (r, hex1) ∧
      ∀ k, k < r → ∃ c, hex1[k]? = some c ∧ IsLowerHexDigitChar c ∧ ¬ (65 ≤ c ∧ c ≤ 90) :=
  chex_encode_lowercase [65, 66, 67, 68, 69, 70] [0xAB, 0xCD, 0xEF] 6 3
    (by decide) (by decide) (by decide)

/-- C13: frame of encode.  For every destination buffer, capacity `hlen` and
source, `chex_encode` returns a count `r ≤ hlen` and only writes destination
indices below `r`: after the call, and after every iteration of its loop, every
destination position at an index `≥ r`, index `r` included, has its prior
content, and the destination has its prior length.  So no terminator is written
and nothing is written at or past `hlen`. -/
theorem chex_encode_frame (hex bin : List Nat) (hlen blen : Nat)
    (hh : hlen < 4294967296) (hbin : blen ≤ bin.length) (hhex : hlen ≤ hex.length) :
    ∃ r hex1, chex_encode hex hlen bin blen = some (r, hex1) ∧ r ≤ hlen ∧
      hex1.length = hex.length ∧
      (∀ k, r ≤ k → hex1[k]? = hex[k]?) ∧
      hex1.drop r = hex.drop r ∧
      (∀ n s, loopIter hlen blen (encodeBody bin) n { i := 0, j := 0, dst := hex } = some s →
        s.dst.length = hex.length ∧ ∀ k, r ≤ k → s.dst[k]? = hex[k]?) := by
  have hbin1 : min blen (hlen / 2) ≤ bin.length := by omega
  have hhex1 : 2 * min blen (hlen / 2) ≤ hex.length := by omega
  obtain ⟨hex1, he, hl, hrest, -⟩ := chex_encode_spec hex bin hlen blen hh hbin1 hhex1
  refine ⟨_, hex1, he, by omega, hl, hrest, ?_, ?_⟩
  · apply List.ext_getElem?
    intro k
    rw [List.getElem?_drop, List.getElem?_drop]
    exact hrest _ (by omega)
  · intro n s hs
    obtain ⟨h1, h2⟩ := loopIter_inv hh (EncInv hex bin) (encodeBody_inv hh hbin1 hhex1) n
      { i := 0, j := 0, dst := hex } (encInv_init hex bin) rfl (Nat.zero_le _)
    by_cases hn : n ≤ min blen (hlen / 2)
    · obtain ⟨t, ht, ⟨hlt, hkeep, -⟩, hti, -⟩ := h1 (by simpa using hn)
      rw [ht] at hs
      cases hs
      refine ⟨hlt, fun k hk => hkeep k ?_⟩
      simp only [Nat.zero_add] at hti
      omega
    · rw [h2 (by simp only [Nat.zero_add]; omega)] at hs
      cases hs

theorem chex_encode_frame_witness :
    ∃ r hex1, chex_encode [1, 2, 3, 4, 5, 6] 5 [0xAB, 0xCD, 0xEF] 3 = some (r, hex1) ∧ r ≤ 5 ∧
      hex1.length = [1, 2, 3, 4, 5, 6].length ∧
      (∀ k, r ≤ k → hex1[k]? = [1, 2, 3, 4, 5, 6][k]?) ∧
      hex1.drop r = [1, 2, 3, 4, 5, 6].drop r ∧
      (∀ n s, loopIter 5 3 (encodeBody [0xAB, 0xCD, 0xEF]) n
          { i := 0, j := 0, dst := [1, 2, 3, 4, 5, 6] } = some s →
        s.dst.length = [1, 2, 3, 4, 5, 6].length ∧
          ∀ k, r ≤ k → s.dst[k]? = [1, 2, 3, 4, 5, 6][k]?) :=
  chex_encode_frame [1, 2, 3, 4, 5, 6] [0xAB, 0xCD, 0xEF] 5 3
    (by decide) (by decide) (by decide)

/-- C14: odd-length decode input.  For every even-length hex buffer `H`, every
extra character `c` and every capacity `blen`, decoding `H` followed by `c` with
`hlen = |H| + 1` returns the same count and writes the same bytes as decoding `H`
with `hlen = |H|`; the call returns a result, which does not depend on `c`. -/
theorem chex_decode_odd_length (charSigned : Bool) (bin H : List Nat) (c blen : Nat)
    (heven : H.length % 2 = 0) (hh : H.length + 1 < 4294967296)
    (hbin : blen ≤ bin.length) :
    ∃ r bin1, chex_decode charSigned bin blen (H ++ [c]) (H.length + 1) = some (r, bin1) ∧
      chex_decode charSigned bin blen H H.length = some (r, bin1) := by
  have hm : min blen ((H.length + 1) / 2) = min blen (H.length / 2) := by omega
  obtain ⟨out1, hd1, hl1, hrest1, hw1⟩ := chex_decode_spec charSigned bin (H ++ [c]) blen
    (H.length + 1) hh (by omega) (by rw [List.length_append, List.length_singleton]; omega)
  obtain ⟨out2, hd2, hl2, hrest2, hw2⟩ := chex_decode_spec charSigned bin H blen
    H.length (by omega) (by omega) (by omega)
  rw [hm] at hd1 hrest1 hw1
  have heq : out1 = out2 := by
    apply List.ext_getElem?
    intro k
    by_cases hk : k < min blen (H.length / 2)
    · obtain ⟨c0, hc0⟩ : ∃ d, H[2 * k]? = some d :=
        ⟨_, List.getElem?_eq_getElem (show 2 * k < H.length by omega)⟩
      obtain ⟨c1, hc1⟩ : ∃ d, H[2 * k + 1]? = some d :=
        ⟨_, List.getElem?_eq_getElem (show 2 * k + 1 < H.length by omega)⟩
      have a0 : (H ++ [c])[2 * k]? = some c0 := by
        rw [List.getElem?_append_left (show 2 * k < H.length by omega)]; exact hc0
      have a1 : (H ++ [c])[2 * k + 1]? = some c1 := by
        rw [List.getElem?_append_left (show 2 * k + 1 < H.length by omega)]; exact hc1
      rw [hw1 k c0 c1 hk a0 a1, hw2 k c0 c1 hk hc0 hc1]
    · rw [hrest1 k (by omega), hrest2 k (by omega)]
  subst heq
  exact ⟨_, out1, hd1, hd2⟩

theorem chex_decode_odd_length_witness :
    ∃ r bin1, chex_decode true [0, 0, 0] 3 ([49, 97, 70, 102] ++ [122]) ([49, 97, 70, 102].length + 1)
        = some (r, bin1) ∧
      chex_decode true [0, 0, 0] 3 [49, 97, 70, 102] [49, 97, 70, 102].length = some (r, bin1) :=
  chex_decode_odd_length true [0, 0, 0] [49, 97, 70, 102] 122 3 (by decide) (by decide) (by decide)

/-- C12: buffer decoding is case-insensitive.  For every hex buffer `H` of valid
hex digits and every buffer `H2` obtained from `H` by changing the case of any
subset of its letters, `chex_decode` with the same capacity returns the same
count and writes the same bytes for `H` and for `H2`. -/
theorem chex_decode_case_insensitive (charSigned : Bool) (bin H H2 : List Nat)
    (blen hlen : Nat) (hh : hlen < 4294967296)
    (hvalid : ∀ c ∈ H.take hlen, IsHexDigitChar c)
    (hvar : List.Forall₂ CaseVariant H H2)
    (hbin : blen ≤ bin.length) (hhex : hlen ≤ H.length) :
    ∃ r bin1, chex_decode charSigned bin blen H hlen = some (r, bin1) ∧
      chex_decode charSigned bin blen H2 hlen = some (r, bin1) := by
  have hlen2 : H.length = H2.length := hvar.length_eq
  obtain ⟨out1, hd1, hl1, hrest1, hw1⟩ := chex_decode_spec charSigned bin H blen hlen hh
    (by omega) (by omega)
  obtain ⟨out2, hd2, hl2, hrest2, hw2⟩ := chex_decode_spec charSigned bin H2 blen hlen hh
    (by omega) (by omega)
  have heq : out1 = out2 := by
    apply List.ext_getElem?
    intro k
    by_cases hk : k < min blen (hlen / 2)
    · obtain ⟨c0, hc0⟩ : ∃ d, H[2 * k]? = some d :=
        ⟨_, List.getElem?_eq_getElem (show 2 * k < H.length by omega)⟩
      obtain ⟨c1, hc1⟩ : ∃ d, H[2 * k + 1]? = some d :=
        ⟨_, List.getElem?_eq_getElem (show 2 * k + 1 < H.length by omega)⟩
      have hv0 : IsHexDigitChar c0 := hvalid c0
        (List.getElem?_mem ((List.getElem?_take_of_lt (show 2 * k < hlen by omega)).trans hc0))
      have hv1 : IsHexDigitChar c1 := hvalid c1
        (List.getElem?_mem
          ((List.getElem?_take_of_lt (show 2 * k + 1 < hlen by omega)).trans hc1))
      obtain ⟨d0, hd0, hr0⟩ := forallTwo_lookup hvar _ _ hc0
      obtain ⟨d1, hd1, hr1⟩ := forallTwo_lookup hvar _ _ hc1
      obtain ⟨hx0, hy0⟩ := caseVariant_hexDigit hv0 hr0
      obtain ⟨hx1, hy1⟩ := caseVariant_hexDigit hv1 hr1
      rw [hw1 k c0 c1 hk hc0 hc1, hw2 k d0 d1 hk hd0 hd1,
        decodedByte_hexDigit charSigned hv0 hv1, decodedByte_hexDigit charSigned hx0 hx1,
        hy0, hy1]
    · rw [hrest1 k (by omega), hrest2 k (by omega)]
  subst heq
  exact ⟨_, out1, hd1, hd2⟩

theorem chex_decode_case_insensitive_witness :
    ∃ r bin1, chex_decode true [0, 0] 2 [100, 69, 97, 68] 4 = some (r, bin1) ∧
      chex_decode true [0, 0] 2 [68, 69, 97, 100] 4 = some (r, bin1) :=
  chex_decode_case_insensitive true [0, 0] [100, 69, 97, 68] [68, 69, 97, 100] 2 4
    (by decide) (by decide)
    (.cons (by decide) (.cons (by decide) (.cons (by decide) (.cons (by decide) .nil))))
    (by decide) (by decide)

/-- C15: termination without wraparound.  For all 32-bit `hlen` and all `blen`,
up to `2^32 - 1`, the loop of `chex_encode` and the loop of `chex_decode` run
exactly `min blen (hlen / 2)` iterations and then stop; `j` is `2 * i` as a
natural number, `j + 1` in the guard does not wrap modulo `2^32`, and the guard
`j + 1 < hlen` is the test `2 * i + 2 ≤ hlen`. -/
theorem chex_loops_run_without_wrap (charSigned : Bool) (hex bin : List Nat)
    (hlen blen : Nat) (hh : hlen < 4294967296)
    (hbin : min blen (hlen / 2) ≤ bin.length)
    (hhex : 2 * min blen (hlen / 2) ≤ hex.length) :
    RunsWithoutWrap hlen blen (encodeBody bin) { i := 0, j := 0, dst := hex }
        (min blen (hlen / 2)) ∧
      RunsWithoutWrap hlen blen (decodeBody charSigned hex) { i := 0, j := 0, dst := bin }
        (min blen (hlen / 2)) :=
  ⟨runsWithoutWrap_of_inv hh (EncInv hex bin) (encodeBody_inv hh hbin hhex) hex
      (encInv_init hex bin),
    runsWithoutWrap_of_inv hh (DecInv charSigned bin hex) (decodeBody_inv hh hbin hhex) bin
      (decInv_init charSigned bin hex)⟩

theorem chex_loops_run_without_wrap_witness :
    RunsWithoutWrap 4294967295 2 (encodeBody [0x12, 0x34]) { i := 0, j := 0, dst := [48, 49, 50, 51] }
        (min 2 (4294967295 / 2)) ∧
      RunsWithoutWrap 4294967295 2 (decodeBody false [48, 49, 50, 51])
        { i := 0, j := 0, dst := [0x12, 0x34] } (min 2 (4294967295 / 2)) :=
  chex_loops_run_without_wrap false [48, 49, 50, 51] [0x12, 0x34] 4294967295 2
    (by decide) (by decide) (by decide)

/-- C18: reverse round trip.  For every even-length hex buffer `H` of valid hex
digits with `|H| = 2 * n`, decode capacity `≥ n` and encode capacity `≥ 2 * n`,
encoding the `n` bytes produced by `chex_decode` of `H` returns `2 * n` and writes
exactly `H` with every letter converted to lowercase; the result is `H` itself
when `H` is already lowercase. -/
theorem chex_encode_decode (charSigned : Bool) (H out hex : List Nat) (n blen hlen : Nat)
    (hH : H.length = 2 * n) (hvalid : ∀ c ∈ H, IsHexDigitChar c)
    (h2n : 2 * n < 4294967296) (hh : hlen < 4294967296)
    (hblen : n ≤ blen) (hhlen : 2 * n ≤ hlen)
    (hout : n ≤ out.length) (hhex : 2 * n ≤ hex.length) :
    ∃ out1 hex1, chex_decode charSigned out blen H (2 * n) = some (n, out1) ∧
      chex_encode hex hlen out1 n = some (2 * n, hex1) ∧
      hex1.take (2 * n) = H.map toLower ∧
      ((∀ c ∈ H, IsLowerHexDigitChar c) → hex1.take (2 * n) = H) := by
  have hm1 : min blen (2 * n / 2) = n := by omega
  have hm2 : min n (hlen / 2) = n := by omega
  obtain ⟨out1, hd, hl1, -, hr⟩ := chex_decode_spec charSigned out H blen (2 * n) h2n
    (by rw [hm1]; exact hout) (by rw [hm1]; omega)
  obtain ⟨hex1, he, -, -, hw⟩ := chex_encode_spec hex out1 hlen n hh
    (by rw [hm2, hl1]; exact hout) (by rw [hm2]; exact hhex)
  rw [hm1] at hd hr
  rw [hm2] at he hw
  have hlow : hex1.take (2 * n) = H.map toLower := by
    have hlm : (H.map toLower).length = 2 * n := by rw [List.length_map, hH]
    rw [← hlm]
    apply take_eq_of_lookup
    intro k hk
    rw [hlm] at hk
    have hkn : k / 2 < n := by omega
    obtain ⟨c0, hc0⟩ : ∃ d, H[2 * (k / 2)]? = some d :=
      ⟨_, List.getElem?_eq_getElem (show 2 * (k / 2) < H.length by omega)⟩
    obtain ⟨c1, hc1⟩ : ∃ d, H[2 * (k / 2) + 1]? = some d :=
      ⟨_, List.getElem?_eq_getElem (show 2 * (k / 2) + 1 < H.length by omega)⟩
    have hv0 : IsHexDigitChar c0 := hvalid c0 (List.getElem?_mem hc0)
    have hv1 : IsHexDigitChar c1 := hvalid c1 (List.getElem?_mem hc1)
    have hb := hr (k / 2) c0 c1 hkn hc0 hc1
    rw [decodedByte_hexDigit charSigned hv0 hv1] at hb
    obtain ⟨h0, h1⟩ := hw (k / 2) _ hkn hb
    rw [chex_toxdigit_eq] at h0 h1
    have q0 := (chex_fromxdigit_hexDigit hv0).2
    have q1 := (chex_fromxdigit_hexDigit hv1).2
    have e0 : (16 * hexDigitValue c0 + hexDigitValue c1) >>> 4 % 16 = hexDigitValue c0 := by
      rw [Nat.shiftRight_eq_div_pow]
      omega
    have e1 : (16 * hexDigitValue c0 + hexDigitValue c1) % 16 = hexDigitValue c1 := by omega
    rw [e0, lowerHexDigit_hexDigitValue hv0] at h0
    rw [e1, lowerHexDigit_hexDigitValue hv1] at h1
    rw [List.getElem?_map]
    rcases Nat.mod_two_eq_zero_or_one k with hpar | hpar
    · have hk2 : 2 * (k / 2) = k := by omega
      rw [hk2] at h0 hc0
      rw [h0, hc0]
      rfl
    · have hk2 : 2 * (k / 2) + 1 = k := by omega
      rw [hk2] at h1 hc1
      rw [h1, hc1]
      rfl
  refine ⟨out1, hex1, hd, he, hlow, ?_⟩
  intro hall
  rw [hlow]
  have hid : H.map toLower = H.map id :=
    List.map_congr_left fun c hc => toLower_of_lower (hall c hc)
  rw [hid, List.map_id]

theorem chex_encode_decode_witness :
    ∃ out1 hex1, chex_decode true [0, 0, 0] 3 [65, 98, 48, 70] (2 * 2) = some (2, out1) ∧
      chex_encode [0, 0, 0, 0, 0] 5 out1 2 = some (2 * 2, hex1) ∧
      hex1.take (2 * 2) = [65, 98, 48, 70].map toLower ∧
      ((∀ c ∈ [65, 98, 48, 70], IsLowerHexDigitChar c) → hex1.take (2 * 2) = [65, 98, 48, 70]) :=
  chex_encode_decode true [65, 98, 48, 70] [0, 0, 0] [0, 0, 0, 0, 0] 2 3 5
    (by decide) (by decide) (by decide) (by decide) (by decide) (by decide) (by decide)
    (by decide)

/-! ## The classifier against section 4.1, and validation before decoding -/

/-- C16, as stated, fails: with the bound `[0,10]` of section 4.1 on `nAF`, the
character `'g'` (`0x67`) has `nAF = 6` within the bound, but `chex_isxdigit`
returns 0 for it, because the code compares `nAF` with `0xf - 0xa = 5`. -/
theorem chex_isxdigit_spec_bound_fails :
    (103 < 256) ∧ chex_isxdigit 103 = 0 ∧ spec_nAF 103 = 6 ∧
    ¬ (chex_isxdigit 103 ≠ 0 ↔
      (0 ≤ spec_n09 103 ∧ spec_n09 103 ≤ 9) ∨ (0 ≤ spec_nAF 103 ∧ spec_nAF 103 ≤ 10)) := by
  decide

/-- C16, amended: for every 8-bit `h`, the two quantities computed by
`chex_isxdigit` are `(h - '0') mod 256` and `((h | 0x20) - 'a') mod 256`, and
`chex_isxdigit h` is nonzero if and only if the first lies in `[0,9]` or the
second lies in `[0,5]`. -/
theorem chex_isxdigit_follows_algorithm (h : Nat) (hh : h < 256) :
    ((toUChar (subU h 48) : Nat) : Int) = spec_n09 h ∧
    ((toUChar (subU (h ||| 0x20) 97) : Nat) : Int) = spec_nAF h ∧
    (chex_isxdigit h ≠ 0 ↔
      (0 ≤ spec_n09 h ∧ spec_n09 h ≤ 9) ∨ (0 ≤ spec_nAF h ∧ spec_nAF h ≤ 5)) := by
  interval_cases h <;> decide

theorem chex_isxdigit_follows_algorithm_witness :
    ((toUChar (subU 70 48) : Nat) : Int) = spec_n09 70 ∧
    ((toUChar (subU (70 ||| 0x20) 97) : Nat) : Int) = spec_nAF 70 ∧
    (chex_isxdigit 70 ≠ 0 ↔
      (0 ≤ spec_n09 70 ∧ spec_n09 70 ≤ 9) ∨ (0 ≤ spec_nAF 70 ∧ spec_nAF 70 ≤ 5)) :=
  chex_isxdigit_follows_algorithm 70 (by decide)

/-- C17, as stated, fails: the 32-bit value `0x130` is accepted by
`chex_isxdigit`, which looks at its low 8 bits `0x30` only, while
`chex_fromxdigit` uses all of its bits and returns 36. -/
theorem chex_isxdigit_accepts_wide_value :
    (0x130 < 4294967296) ∧ chex_isxdigit 0x130 ≠ 0 ∧ chex_fromxdigit 0x130 = 36 ∧
    ¬ (chex_isxdigit 0x130 ≠ 0 → chex_fromxdigit 0x130 ≤ 15) := by
  decide

/-- C17, amended: for every 8-bit character `c`, passed as the value `c` or as a
`char` converted to `unsigned` for either signedness of plain `char`, if
`chex_isxdigit` is nonzero then `chex_fromxdigit` is in `0..15`, and is the
numeric value of the digit `c`. -/
theorem chex_isxdigit_implies_fromxdigit (charSigned : Bool) (c : Nat) (hc : c < 256)
    (hx : chex_isxdigit (charToUnsigned charSigned c) ≠ 0) :
    chex_fromxdigit (charToUnsigned charSigned c) ≤ 15 ∧
    chex_fromxdigit (charToUnsigned charSigned c) = hexDigitValue c ∧
    (chex_isxdigit c ≠ 0 → chex_fromxdigit c ≤ 15) := by
  revert hx
  interval_cases c <;> cases charSigned <;> decide

theorem chex_isxdigit_implies_fromxdigit_witness :
    chex_fromxdigit (charToUnsigned true 102) ≤ 15 ∧
    chex_fromxdigit (charToUnsigned true 102) = hexDigitValue 102 ∧
    (chex_isxdigit 102 ≠ 0 → chex_fromxdigit 102 ≤ 15) :=
  chex_isxdigit_implies_fromxdigit true 102 (by decide) (by decide)

end Chex
